import Mathlib

/-!
Verification development for the bip39-cli repository.

The repository is a command-line shell around a BIP39 mnemonic codec.  The
validation and suggestion helpers live in src/security.rs and are embedded
here directly.  The entropy <-> mnemonic codec, the SHA-256 checksum and the
PBKDF2-HMAC-SHA512 seed derivation are provided by the external bip39 crate
(the repository only calls them), so those operations are modelled from the
specification, as marked on each definition.
-/

namespace Bip39

/-! ## Bits and bytes -/

/-- Modelled from the spec: big-endian bit decomposition.  natToBits k n is
the list of the low k bits of n, most significant first. -/
def natToBits : Nat → Nat → List Bool
  | 0, _ => []
  | k + 1, n => ((n >>> k) % 2 == 1) :: natToBits k n

/-- Modelled from the spec: interpret a bit list (most significant first) as
a big-endian natural number. -/
def bitsToNat : List Bool → Nat
  | [] => 0
  | b :: bs => (if b then 1 else 0) * 2 ^ bs.length + bitsToNat bs

/-- Split a list into consecutive chunks of k elements; the first argument is
recursion fuel (callers pass the list length). -/
def chunksGo (k : Nat) : Nat → List α → List (List α)
  | 0, _ => []
  | _ + 1, [] => []
  | fuel + 1, a :: l => ((a :: l).take k) :: chunksGo k fuel ((a :: l).drop k)

/-- Split a list into consecutive chunks of k elements. -/
def chunks (k : Nat) (l : List α) : List (List α) :=
  chunksGo k l.length l

/-- Modelled from the spec: a byte string as a bit string, each byte most
significant bit first. -/
def bytesToBits (bytes : List Nat) : List Bool :=
  (bytes.map (natToBits 8)).flatten

/-- Modelled from the spec: reassemble bytes from a bit string (groups of 8,
most significant first). -/
def bitsToBytes (bits : List Bool) : List Nat :=
  (chunks 8 bits).map bitsToNat

/-- Big-endian byte encoding of a natural number on k bytes. -/
def beBytes : Nat → Nat → List Nat
  | 0, _ => []
  | k + 1, n => ((n >>> (8 * k)) % 256) :: beBytes k n

/-- Bytewise xor of two byte strings (used by HMAC and PBKDF2). -/
def xorBytes (a b : List Nat) : List Nat :=
  List.zipWith (fun x y => x ^^^ y) a b

/-! ## SHA-256 and SHA-512, modelled from the spec

The spec fixes the checksum as the leading bits of SHA-256(entropy) and the
seed as PBKDF2-HMAC-SHA512 output.  Both hash functions are implemented here
from the FIPS 180-4 description: the round constants are the fractional parts
of the cube roots of the first primes and the initial state the fractional
parts of their square roots, obtained below by integer root extraction. -/

/-- The first 80 primes, in order; SHA-256 uses the first 64 for its round
constants and the first 8 for its initial state, SHA-512 uses all 80. -/
def sha2Primes : List Nat :=
  [2, 3, 5, 7, 11, 13, 17, 19, 23, 29, 31, 37, 41, 43, 47, 53,
   59, 61, 67, 71, 73, 79, 83, 89, 97, 101, 103, 107, 109, 113, 127, 131,
   137, 139, 149, 151, 157, 163, 167, 173, 179, 181, 191, 193, 197, 199, 211, 223,
   227, 229, 233, 239, 241, 251, 257, 263, 269, 271, 277, 281, 283, 293, 307, 311,
   313, 317, 331, 337, 347, 349, 353, 359, 367, 373, 379, 383, 389, 397, 401, 409]

/-- Binary search step for the integer cube root: returns the largest value
in [lo, hi] whose cube is at most n, given enough fuel. -/
def cbrtGo (n : Nat) : Nat → Nat → Nat → Nat
  | lo, _, 0 => lo
  | lo, hi, fuel + 1 =>
    if lo < hi then
      let mid := (lo + hi + 1) / 2
      if mid * mid * mid ≤ n then cbrtGo n mid hi fuel else cbrtGo n lo (mid - 1) fuel
    else lo

/-- Integer cube root. -/
def natCbrt (n : Nat) : Nat := cbrtGo n 0 n 300

/-- Binary search step for the integer square root: returns the largest
value in [lo, hi] whose square is at most n, given enough fuel. -/
def sqrtGo (n : Nat) : Nat → Nat → Nat → Nat
  | lo, _, 0 => lo
  | lo, hi, fuel + 1 =>
    if lo < hi then
      let mid := (lo + hi + 1) / 2
      if mid * mid ≤ n then sqrtGo n mid hi fuel else sqrtGo n lo (mid - 1) fuel
    else lo

/-- Integer square root. -/
def natSqrt (n : Nat) : Nat := sqrtGo n 0 n 300

/-- SHA-256 round constants: first 32 bits of the fractional parts of the
cube roots of the first 64 primes. -/
def shaK256 : List Nat :=
  (sha2Primes.take 64).map (fun p => natCbrt (p * 2 ^ 96) % 2 ^ 32)

/-- SHA-256 initial state: first 32 bits of the fractional parts of the
square roots of the first 8 primes. -/
def shaH256 : List Nat :=
  (sha2Primes.take 8).map (fun p => natSqrt (p * 2 ^ 64) % 2 ^ 32)

/-- SHA-512 round constants: first 64 bits of the fractional parts of the
cube roots of the first 80 primes. -/
def shaK512 : List Nat :=
  sha2Primes.map (fun p => natCbrt (p * 2 ^ 192) % 2 ^ 64)

/-- SHA-512 initial state: first 64 bits of the fractional parts of the
square roots of the first 8 primes. -/
def shaH512 : List Nat :=
  (sha2Primes.take 8).map (fun p => natSqrt (p * 2 ^ 128) % 2 ^ 64)

/-- An eight-word hash state, shared by both SHA-2 variants. -/
structure Hash8 where
  s0 : Nat
  s1 : Nat
  s2 : Nat
  s3 : Nat
  s4 : Nat
  s5 : Nat
  s6 : Nat
  s7 : Nat
deriving DecidableEq

/-- Rotate a w-bit word right by r. -/
def rotr (w r x : Nat) : Nat :=
  ((x >>> r) ||| (x <<< (w - r))) % 2 ^ w

/-- One SHA-2 round on a w-bit state; the rotation and shift amounts of the
big sigma functions are passed in as a list of six numbers. -/
def sha2Round (w : Nat) (rots : List Nat) (st : Hash8) (kw : Nat × Nat) : Hash8 :=
  let m := 2 ^ w
  let e := st.s4
  let bigS1 := (rotr w (rots.getD 3 0) e) ^^^ (rotr w (rots.getD 4 0) e) ^^^ (rotr w (rots.getD 5 0) e)
  let ch := (e &&& st.s5) ^^^ ((m - 1 - e) &&& st.s6)
  let t1 := (st.s7 + bigS1 + ch + kw.1 + kw.2) % m
  let a := st.s0
  let bigS0 := (rotr w (rots.getD 0 0) a) ^^^ (rotr w (rots.getD 1 0) a) ^^^ (rotr w (rots.getD 2 0) a)
  let maj := (a &&& st.s1) ^^^ (a &&& st.s2) ^^^ (st.s1 &&& st.s2)
  let t2 := (bigS0 + maj) % m
  ⟨(t1 + t2) % m, a, st.s1, st.s2, (st.s3 + t1) % m, e, st.s5, st.s6⟩

/-- Message-schedule extension: append n further words to the 16 block
words, using the small sigma functions given by the six shift amounts. -/
def sha2Extend (w : Nat) (shifts : List Nat) : List Nat → Nat → List Nat
  | ws, 0 => ws
  | ws, n + 1 =>
    let m := ws.length
    let x15 := ws.getD (m - 15) 0
    let x2 := ws.getD (m - 2) 0
    let sig0 := (rotr w (shifts.getD 0 0) x15) ^^^ (rotr w (shifts.getD 1 0) x15) ^^^ (x15 >>> shifts.getD 2 0)
    let sig1 := (rotr w (shifts.getD 3 0) x2) ^^^ (rotr w (shifts.getD 4 0) x2) ^^^ (x2 >>> shifts.getD 5 0)
    sha2Extend w shifts (ws ++ [(ws.getD (m - 16) 0 + sig0 + ws.getD (m - 7) 0 + sig1) % 2 ^ w]) n

/-- Add two hash states word by word, modulo the word size. -/
def hash8Add (w : Nat) (a b : Hash8) : Hash8 :=
  let m := 2 ^ w
  ⟨(a.s0 + b.s0) % m, (a.s1 + b.s1) % m, (a.s2 + b.s2) % m, (a.s3 + b.s3) % m,
   (a.s4 + b.s4) % m, (a.s5 + b.s5) % m, (a.s6 + b.s6) % m, (a.s7 + b.s7) % m⟩

/-- Build a Hash8 from a list of eight words. -/
def hash8OfList (l : List Nat) : Hash8 :=
  ⟨l.getD 0 0, l.getD 1 0, l.getD 2 0, l.getD 3 0, l.getD 4 0, l.getD 5 0, l.getD 6 0, l.getD 7 0⟩

/-- Serialize a Hash8 to bytes, each word big-endian on w/8 bytes. -/
def hash8Bytes (w : Nat) (st : Hash8) : List Nat :=
  beBytes (w / 8) st.s0 ++ beBytes (w / 8) st.s1 ++ beBytes (w / 8) st.s2 ++ beBytes (w / 8) st.s3 ++
  beBytes (w / 8) st.s4 ++ beBytes (w / 8) st.s5 ++ beBytes (w / 8) st.s6 ++ beBytes (w / 8) st.s7

/-- A word from big-endian bytes. -/
def wordOfBytes (bs : List Nat) : Nat :=
  bs.foldl (fun a b => a * 256 + b) 0

/-- One SHA-256 compression: a 64-byte block folded into the state. -/
def sha256Compress (st : Hash8) (block : List Nat) : Hash8 :=
  let ws := sha2Extend 32 [7, 18, 3, 17, 19, 10] ((chunks 4 block).map wordOfBytes) 48
  hash8Add 32 st ((List.zip shaK256 ws).foldl (sha2Round 32 [2, 13, 22, 6, 11, 25]) st)

/-- SHA-2 padding: append the 0x80 marker, zeros and the message bit length
on lenBytes bytes so the total is a multiple of the block size. -/
def sha2Pad (blockLen lenBytes : Nat) (msg : List Nat) : List Nat :=
  let zeros := (blockLen - (msg.length + 1 + lenBytes) % blockLen) % blockLen
  msg ++ [0x80] ++ List.replicate zeros 0 ++ beBytes lenBytes (8 * msg.length)

/-- Modelled from the spec: SHA-256 of a byte string (FIPS 180-4). -/
def sha256 (msg : List Nat) : List Nat :=
  let padded := sha2Pad 64 8 msg
  hash8Bytes 32 ((chunks 64 padded).foldl sha256Compress (hash8OfList shaH256))

/-- One SHA-512 compression: a 128-byte block folded into the state. -/
def sha512Compress (st : Hash8) (block : List Nat) : Hash8 :=
  let ws := sha2Extend 64 [1, 8, 7, 19, 61, 6] ((chunks 8 block).map wordOfBytes) 64
  hash8Add 64 st ((List.zip shaK512 ws).foldl (sha2Round 64 [28, 34, 39, 14, 18, 41]) st)

/-- Modelled from the spec: SHA-512 of a byte string (FIPS 180-4). -/
def sha512 (msg : List Nat) : List Nat :=
  let padded := sha2Pad 128 16 msg
  hash8Bytes 64 ((chunks 128 padded).foldl sha512Compress (hash8OfList shaH512))

/-- Modelled from the spec: HMAC-SHA512 (RFC 2104) with the 128-byte block
size of SHA-512. -/
def hmacSha512 (key msg : List Nat) : List Nat :=
  let k0 := if 128 < key.length then sha512 key else key
  let kp := k0 ++ List.replicate (128 - k0.length) 0
  sha512 ((kp.map (fun b => b ^^^ 0x5c)) ++ sha512 ((kp.map (fun b => b ^^^ 0x36)) ++ msg))

/-- PBKDF2 inner loop: n further HMAC iterations, xor-accumulated. -/
def pbkdf2Go (pw : List Nat) : Nat → List Nat → List Nat → List Nat
  | 0, _, acc => acc
  | n + 1, u, acc =>
    let u' := hmacSha512 pw u
    pbkdf2Go pw n u' (xorBytes acc u')

/-- Modelled from the spec: the first (and for a 64-byte output only) block
of PBKDF2-HMAC-SHA512 with 2048 iterations (RFC 2898), as used by BIP39 seed
derivation. -/
def pbkdf2Sha512 (pw salt : List Nat) : List Nat :=
  let u1 := hmacSha512 pw (salt ++ [0, 0, 0, 1])
  pbkdf2Go pw 2047 u1 u1

/-! ## Strings, whitespace and normalization -/

/-- UTF-8 encoding of one Unicode scalar value. -/
def utf8Char (c : Char) : List Nat :=
  let n := c.toNat
  if n < 0x80 then [n]
  else if n < 0x800 then [0xC0 ||| (n >>> 6), 0x80 ||| (n &&& 0x3F)]
  else if n < 0x10000 then
    [0xE0 ||| (n >>> 12), 0x80 ||| ((n >>> 6) &&& 0x3F), 0x80 ||| (n &&& 0x3F)]
  else
    [0xF0 ||| (n >>> 18), 0x80 ||| ((n >>> 12) &&& 0x3F), 0x80 ||| ((n >>> 6) &&& 0x3F),
     0x80 ||| (n &&& 0x3F)]

/-- UTF-8 encoding of a string. -/
def utf8Bytes (s : String) : List Nat :=
  (s.data.map utf8Char).flatten

/-- The code points with the Unicode White_Space property, which is what
the Rust char::is_whitespace test used by split_whitespace checks. -/
def rustWhitespace : List Nat :=
  [0x09, 0x0A, 0x0B, 0x0C, 0x0D, 0x20, 0x85, 0xA0, 0x1680,
   0x2000, 0x2001, 0x2002, 0x2003, 0x2004, 0x2005, 0x2006, 0x2007, 0x2008, 0x2009, 0x200A,
   0x2028, 0x2029, 0x202F, 0x205F, 0x3000]

/-- Whether a character is Unicode whitespace (Rust char::is_whitespace). -/
def isRustWs (c : Char) : Bool :=
  rustWhitespace.contains c.toNat

/-- Accumulator loop behind splitWs: words are collected in reverse in acc
and emitted when whitespace or the end of the input is reached.  This is the
behaviour of Rust str::split_whitespace: split on whitespace runs, with no
empty words. -/
def splitWsAux : List Char → List Char → List (List Char)
  | [], acc => if acc.isEmpty then [] else [acc.reverse]
  | c :: cs, acc =>
    if isRustWs c then
      if acc.isEmpty then splitWsAux cs [] else acc.reverse :: splitWsAux cs []
    else splitWsAux cs (c :: acc)

/-- The whitespace-separated words of a string (Rust str::split_whitespace). -/
def splitWs (s : String) : List String :=
  (splitWsAux s.data []).map String.mk

/-- The number of whitespace-separated words of a string. -/
def wordCountOf (s : String) : Nat :=
  (splitWs s).length

/-- Words joined with single ASCII spaces, as the mnemonic is printed. -/
def joinWords : List String → String
  | [] => ""
  | [w] => w
  | w :: w2 :: ws => w ++ " " ++ joinWords (w2 :: ws)

/-- Character-level form of joinWords. -/
def joinChars : List (List Char) → List Char
  | [] => []
  | [w] => w
  | w :: w2 :: ws => w ++ ' ' :: joinChars (w2 :: ws)

/-- Models Rust char::to_lowercase on the code points exercised in this
development: ASCII and fullwidth Latin capital letters and the Latin-1
capitals map to the lowercase letter 0x20 above them; to_lowercase leaves
every other code point appearing here unchanged. -/
def rustLowerChar (c : Char) : Char :=
  if 'A' ≤ c ∧ c ≤ 'Z' then Char.ofNat (c.toNat + 0x20)
  else if 0xFF21 ≤ c.toNat ∧ c.toNat ≤ 0xFF3A then Char.ofNat (c.toNat + 0x20)
  else if 0xC0 ≤ c.toNat ∧ c.toNat ≤ 0xDE ∧ c.toNat ≠ 0xD7 then Char.ofNat (c.toNat + 0x20)
  else c

/-- Models Rust str::to_lowercase (see rustLowerChar). -/
def rustToLowercase (s : String) : String :=
  String.mk (s.data.map rustLowerChar)

/-- Modelled from the spec: NFKD normalization, restricted to the
compatibility-width code points used in this development (fullwidth ASCII
and the ideographic space decompose to their ASCII counterparts); NFKD
additionally decomposes other compatibility characters that never appear
here, on which this model is the identity. -/
def nfkdChar (c : Char) : List Char :=
  if 0xFF01 ≤ c.toNat ∧ c.toNat ≤ 0xFF5E then [Char.ofNat (c.toNat - 0xFEE0)]
  else if c.toNat = 0x3000 then [' ']
  else [c]

/-- NFKD normalization of a string (see nfkdChar). -/
def nfkdStr (s : String) : String :=
  String.mk ((s.data.map nfkdChar).flatten)

/-- The NFKD-normalized, case-folded form of a word, as the spec describes
word lookup. -/
def nfkdCaseFold (s : String) : String :=
  rustToLowercase (nfkdStr s)

deriving instance DecidableEq for Except

/-! ## The error type of src/error.rs -/

/-- The CliError enum of src/error.rs.  The MnemonicError and HexDecodeError
variants wrap payloads of the external bip39 and hex crates, which no claim
inspects, so the payloads are not modelled. -/
inductive CliError where
  | InvalidEntropyLength (actual : Nat) (expected : List Nat) (hint : String)
  | InvalidHexString (message : String) (position : Option Nat) (hint : String)
  | InvalidWordCount (actual : Nat) (expected : List Nat) (hint : String)
  | InvalidWord (word : String) (position : Nat) (suggestions : List String)
  | MnemonicError
  | HexDecodeError
  | NoCommandProvided
deriving DecidableEq

/-- Whether a result is the InvalidEntropyLength error. -/
def isInvalidEntropyLengthErr : Except CliError Unit → Bool
  | .error (.InvalidEntropyLength _ _ _) => true
  | _ => false

/-- Whether a result is the InvalidHexString error. -/
def isInvalidHexStringErr : Except CliError Unit → Bool
  | .error (.InvalidHexString _ _ _) => true
  | _ => false

/-- Whether a result is the InvalidWordCount error. -/
def isInvalidWordCountErr : Except CliError Unit → Bool
  | .error (.InvalidWordCount _ _ _) => true
  | _ => false

/-! ## src/security.rs: validate_entropy_hex -/

/-- The allowed hex lengths of validate_entropy_hex (in Rust, str::len
counts UTF-8 bytes). -/
def expectedHexLens : List Nat := [32, 40, 48, 56, 64]

/-- The word-count part of the hint built by validate_entropy_hex. -/
def wordsForLenHint (l : Nat) : String :=
  if l < 32 then "12" else if l < 40 then "15" else if l < 48 then "18"
  else if l < 56 then "21" else "24"

/-- The hex-length part of the hint built by validate_entropy_hex. -/
def hexCharsForLenHint (l : Nat) : Nat :=
  if l < 32 then 32 else if l < 40 then 40 else if l < 48 then 48
  else if l < 56 then 56 else 64

/-- The hint string built by validate_entropy_hex for a bad length. -/
def entropyLenHint (l : Nat) : String :=
  "For " ++ wordsForLenHint l ++ " words, use " ++ toString (hexCharsForLenHint l) ++
    " hex characters"

/-- Rust char::is_ascii_hexdigit. -/
def isAsciiHexdigitCh (c : Char) : Bool :=
  (('0' ≤ c ∧ c ≤ '9') ∨ ('a' ≤ c ∧ c ≤ 'f') ∨ ('A' ≤ c ∧ c ≤ 'F') : Prop)

/-- Position of the first character failing is_ascii_hexdigit, counting
characters from i (the chars().enumerate() loop of validate_entropy_hex). -/
def firstNonHexIdx : List Char → Nat → Option Nat
  | [], _ => none
  | c :: cs, i => if isAsciiHexdigitCh c then firstNonHexIdx cs (i + 1) else some i

/-- validate_entropy_hex of src/security.rs: the length gate (on the UTF-8
byte length, which is what hex_str.len() returns) runs first, then the scan
for the first non-hex character. -/
def validate_entropy_hex (s : String) : Except CliError Unit :=
  if s.utf8ByteSize ∈ expectedHexLens then
    match firstNonHexIdx s.data 0 with
    | some i =>
      .error (.InvalidHexString "Entropy must be a valid hex string" (some i)
        "Use only characters 0-9, a-f, A-F")
    | none => .ok ()
  else
    .error (.InvalidEntropyLength s.utf8ByteSize expectedHexLens
      (entropyLenHint s.utf8ByteSize))

/-! ## src/security.rs: validate_mnemonic_word_count -/

/-- The valid word counts of validate_mnemonic_word_count. -/
def validCounts : List Nat := [12, 15, 18, 21, 24]

/-- Natural-number absolute difference, as the i32 abs of the source. -/
def natDist (a b : Nat) : Nat := max a b - min a b

/-- The closest valid count computed by validate_mnemonic_word_count via
min_by_key, which keeps the first minimum. -/
def closestValidCount (wc : Nat) : Nat :=
  (validCounts.drop 1).foldl (fun best c => if natDist c wc < natDist best wc then c else best) 12

/-- The hint string built by validate_mnemonic_word_count (quotes of the
original text omitted). -/
def wordCountHint (wc : Nat) : String :=
  "Closest valid count is " ++ toString (closestValidCount wc) ++
    " words. Use bip39 generate --words " ++ toString (closestValidCount wc) ++
    " to generate a valid mnemonic"

/-- validate_mnemonic_word_count of src/security.rs. -/
def validate_mnemonic_word_count (mnemonic : String) : Except CliError Unit :=
  let word_count := wordCountOf mnemonic
  if word_count ∈ validCounts then .ok ()
  else .error (.InvalidWordCount word_count validCounts (wordCountHint word_count))

/-! ## src/security.rs: edit_distance

The source fills an (m+1) x (n+1) table dp with dp[0][j] = j, dp[i][0] = i
and dp[i][j] either dp[i-1][j-1] (equal characters) or
1 + dp[i-1][j].min(dp[i][j-1]).min(dp[i-1][j-1]).  dpFun computes a cell of
that table as a function of its indices; dpSucc is row i+1 given row i. -/

/-- Row i+1 of the edit-distance table, as a function of the column, given
row i (ri), the character s1[i] and the second character list. -/
def dpSucc (ri : Nat → Nat) (c : Char) (cs2 : List Char) (i : Nat) : Nat → Nat
  | 0 => i + 1
  | j + 1 =>
    if c = cs2.getD j ' ' then ri j
    else 1 + min (min (ri (j + 1)) (dpSucc ri c cs2 i j)) (ri j)

/-- The edit-distance table of the source as a function of its indices. -/
def dpFun (cs1 cs2 : List Char) : Nat → Nat → Nat
  | 0 => fun j => j
  | i + 1 => dpSucc (dpFun cs1 cs2 i) (cs1.getD i ' ') cs2 i

/-- edit_distance of src/security.rs: the bottom-right cell of the table
over the character (Unicode scalar) lists of the two strings. -/
def edit_distance (s1 s2 : String) : Nat :=
  dpFun s1.data s2.data s1.data.length s2.data.length

/-! ## src/security.rs: find_invalid_words -/

/-- Word positions numbered from a starting index (the enumerate() of the
source starts at 0). -/
def enumWords : Nat → List String → List (Nat × String)
  | _, [] => []
  | i, w :: ws => (i, w) :: enumWords (i + 1) ws

/-- find_invalid_words of src/security.rs, with the language word list
passed as the list of its words: every word whose lowercased form is not in
the list is reported with its 1-based position and with the first three
list words within edit distance 2 of the lowercased word. -/
def find_invalid_words (mnemonic : String) (word_list : List String) :
    List (Nat × String × List String) :=
  (enumWords 0 (splitWs mnemonic)).filterMap fun iw =>
    let word_lower := rustToLowercase iw.2
    if word_lower ∈ word_list then none
    else
      some (iw.1 + 1, iw.2,
        (word_list.filter fun w => decide (edit_distance word_lower w ≤ 2)).take 3)

/-! ## The BIP39 codec, modelled from the spec

The entropy <-> mnemonic conversion is performed by the external bip39
crate (Mnemonic::from_entropy_in, Mnemonic::parse_in_normalized,
Mnemonic::to_entropy); the repository only calls it.  The definitions below
model it from sections 4.2 and 7 of the spec.  A language's word list is
passed as a list of words; the InvalidWord error records the 1-based
position (the offending word and its suggestions do not affect any claim
about the codec). -/

/-- Modelled from the spec: the conceptual error taxonomy of the codec
(spec section 7).  WordIndexOutOfRange is unreachable for full 2048-word
lists and only makes encoding total. -/
inductive CodecError where
  | InvalidEntropyLength
  | InvalidWordCount (actual : Nat)
  | InvalidWord (position : Nat)
  | ChecksumMismatch
  | WordIndexOutOfRange
deriving DecidableEq

/-- The valid entropy byte lengths. -/
def validEntropyBytes : List Nat := [16, 20, 24, 28, 32]

/-- Modelled from the spec: CS_BITS = ENT/32, for an entropy of the given
byte length. -/
def checksumLenBits (entropyBytes : Nat) : Nat := entropyBytes * 8 / 32

/-- Modelled from the spec: the checksum is the top CS_BITS bits of
SHA-256 of the entropy. -/
def checksumBits (E : List Nat) : List Bool :=
  (bytesToBits (sha256 E)).take (checksumLenBits E.length)

/-- Modelled from the spec: entropy bits followed by checksum bits, split
into 11-bit groups read as big-endian word indices. -/
def encodeIndices (E : List Nat) : List Nat :=
  (chunks 11 (bytesToBits E ++ checksumBits E)).map bitsToNat

/-- Look up each index in the word list; none if any index is out of
range. -/
def wordsOfIndices (wl : List α) : List Nat → Option (List α)
  | [] => some []
  | i :: is =>
    match wl.get? i, wordsOfIndices wl is with
    | some w, some ws => some (w :: ws)
    | _, _ => none

/-- Modelled from the spec: encoding (spec 4.2.1) — reject an entropy of
invalid length, then map the 11-bit groups of entropy-plus-checksum through
the word list. -/
def encodeMnemonic (wl : List α) (E : List Nat) : Except CodecError (List α) :=
  if E.length ∈ validEntropyBytes then
    match wordsOfIndices wl (encodeIndices E) with
    | some ws => .ok ws
    | none => .error .WordIndexOutOfRange
  else .error .InvalidEntropyLength

/-- Index of the first occurrence of an element in a list. -/
def idxOf? [DecidableEq α] (l : List α) (a : α) : Option Nat :=
  match l with
  | [] => none
  | b :: t => if b = a then some 0 else (idxOf? t a).map (· + 1)

/-- Modelled from the spec: look up the words left to right, reporting the
first out-of-list word with its 1-based position. -/
def lookupIndices [DecidableEq α] (wl : List α) : List α → Nat → Except CodecError (List Nat)
  | [], _ => .ok []
  | w :: ws, pos =>
    match idxOf? wl w with
    | none => .error (.InvalidWord pos)
    | some i =>
      match lookupIndices wl ws (pos + 1) with
      | .ok is => .ok (i :: is)
      | .error e => .error e

/-- The bit string packed back from word indices (11 bits each). -/
def idxBits (idxs : List Nat) : List Bool :=
  (idxs.map (natToBits 11)).flatten

/-- The number of entropy bits of an N-word mnemonic (N*11 total bits of
which N*11/33 are checksum). -/
def entBitsOf (N : Nat) : Nat := N * 11 - N * 11 / 33

/-- The number of checksum bits of an N-word mnemonic. -/
def csLenOf (N : Nat) : Nat := N * 11 / 33

/-- The entropy bytes decoded from word indices of an N-word mnemonic. -/
def decodedEntropy (idxs : List Nat) (N : Nat) : List Nat :=
  bitsToBytes ((idxBits idxs).take (entBitsOf N))

/-- Modelled from the spec: the decode-side checksum test — the trailing
CS bits of the packed indices must equal the top CS bits of SHA-256 of the
decoded entropy bytes. -/
def checksumOk (idxs : List Nat) (N : Nat) : Bool :=
  (idxBits idxs).drop (entBitsOf N) ==
    (bytesToBits (sha256 (decodedEntropy idxs N))).take (csLenOf N)

/-- Modelled from the spec: decoding (spec 4.2.2) — gate on the word count,
look up the indices, split entropy from checksum and verify it. -/
def decodeMnemonic [DecidableEq α] (wl : List α) (ws : List α) : Except CodecError (List Nat) :=
  if ws.length ∈ validCounts then
    match lookupIndices wl ws 1 with
    | .error e => .error e
    | .ok idxs =>
      if checksumOk idxs ws.length then .ok (decodedEntropy idxs ws.length)
      else .error .ChecksumMismatch
  else .error (.InvalidWordCount ws.length)

/-- Modelled from the spec: decoding a mnemonic string splits it on
whitespace and decodes the word sequence. -/
def decodePhrase (wl : List String) (s : String) : Except CodecError (List Nat) :=
  decodeMnemonic wl (splitWs s)

/-- Modelled from the spec: BIP39 seed derivation — PBKDF2-HMAC-SHA512,
2048 iterations, 64-byte output, password the NFKD-normalized mnemonic
string, salt the ASCII literal mnemonic followed by the NFKD-normalized
passphrase. -/
def deriveSeed (M P : String) : List Nat :=
  pbkdf2Sha512 (utf8Bytes (nfkdStr M)) (utf8Bytes ("mnemonic" ++ nfkdStr P))

/-! ## A reference recursion for the edit distance

levRec is the textbook structural recursion for the Levenshtein distance.
It is not part of the embedded program: it only serves the proofs, which
first show that the table of edit_distance agrees with levRec on reversed
prefixes and then establish the metric properties of levRec. -/

/-- Structural Levenshtein recursion, with the minimum grouped as in the
source table. -/
def levRec : List Char → List Char → Nat
  | [], ys => ys.length
  | _ :: xs, [] => xs.length + 1
  | x :: xs, y :: ys =>
    if x = y then levRec xs ys
    else 1 + min (min (levRec xs (y :: ys)) (levRec (x :: xs) ys)) (levRec xs ys)
termination_by xs ys => xs.length + ys.length
decreasing_by all_goals simp +arith

/-- One edit: insert, delete or replace the head, or edit beneath the head. -/
inductive EStep : List Char → List Char → Prop where
  | ins (c : Char) (l : List Char) : EStep l (c :: l)
  | del (c : Char) (l : List Char) : EStep (c :: l) l
  | rep (a b : Char) (l : List Char) : EStep (a :: l) (b :: l)
  | lift (c : Char) {u v : List Char} : EStep u v → EStep (c :: u) (c :: v)

/-- A chain of exactly n single edits. -/
inductive EPath : Nat → List Char → List Char → Prop where
  | refl (l : List Char) : EPath 0 l l
  | step {n : Nat} {a b c : List Char} : EStep a b → EPath n b c → EPath (n + 1) a c

/-! ## Concrete instances used by witnesses -/

/-- An injective 2048-entry vocabulary: the 11-bit binary spelling of each
index.  It stands in for a language word list in witness instantiations. -/
def natWord (n : Nat) : String :=
  String.mk ((natToBits 11 n).map fun b => if b then '1' else '0')

/-- A 2048-word list with pairwise distinct, whitespace-free words. -/
def demoWordList : List String :=
  (List.range 2048).map natWord

/-- The all-zero 16-byte entropy of the first official BIP39 test vector. -/
def entropyZero16 : List Nat := List.replicate 16 0

/-! # Theorems -/

/-! ## Claim C4: the word-count gate -/

/-- Claim C4: validate_mnemonic_word_count fails with InvalidWordCount
exactly when the whitespace-separated word count is outside
{12, 15, 18, 21, 24}, and returns Ok exactly when it is inside; in
particular 11, 13 and 25 words are rejected and the five valid counts
pass. -/
theorem claim_C4 (m : String) :
    (isInvalidWordCountErr (validate_mnemonic_word_count m) = true ↔
      wordCountOf m ∉ validCounts) ∧
    (validate_mnemonic_word_count m = .ok () ↔ wordCountOf m ∈ validCounts) := by
  unfold validate_mnemonic_word_count
  by_cases h : wordCountOf m ∈ validCounts <;> simp [h, isInvalidWordCountErr]

/-- Witness for claim C4 at a concrete 12-word string. -/
theorem claim_C4_witness :
    validate_mnemonic_word_count "a a a a a a a a a a a a" = .ok () :=
  (claim_C4 "a a a a a a a a a a a a").2.mpr (by decide)

/-! ## Claim C5: the entropy length gate -/

/-- Claim C5 (amended): the length gate of validate_entropy_hex is on the
UTF-8 byte length of the string (Rust str::len), not on its character
length: InvalidEntropyLength is returned exactly when the byte length is
outside {32, 40, 48, 56, 64}. -/
theorem claim_C5_amended (s : String) :
    isInvalidEntropyLengthErr (validate_entropy_hex s) = true ↔
      s.utf8ByteSize ∉ expectedHexLens := by
  unfold validate_entropy_hex
  by_cases h : s.utf8ByteSize ∈ expectedHexLens
  · cases hf : firstNonHexIdx s.data 0 <;> simp [h, hf, isInvalidEntropyLengthErr]
  · simp [h, isInvalidEntropyLengthErr]

/-- Witness for the amended claim C5 at a concrete 2-byte string. -/
theorem claim_C5_amended_witness :
    isInvalidEntropyLengthErr (validate_entropy_hex "ff") = true :=
  (claim_C5_amended "ff").mpr (by decide)

/-- Counterexample to claim C5 as stated: a string of sixteen copies of a
two-byte character has character length 16, outside the five allowed
values, yet validate_entropy_hex does not fail with InvalidEntropyLength
(its byte length is 32, so the scan reports InvalidHexString instead). -/
theorem claim_C5_counterexample :
    String.length "éééééééééééééééé" ∉ expectedHexLens ∧
      isInvalidEntropyLengthErr (validate_entropy_hex "éééééééééééééééé") = false := by
  decide

/-! ## Claim C10: length check before hex check -/

/-- Claim C10 (amended): with length measured in UTF-8 bytes (Rust
str::len), validate_entropy_hex checks the length first — any string of
invalid byte length gets InvalidEntropyLength even if it has non-hex
characters — and InvalidHexString, carrying the 0-based character position
of the first non-hex character, is returned exactly for strings of valid
byte length containing a non-hex character. -/
theorem claim_C10_amended (s : String) :
    (s.utf8ByteSize ∉ expectedHexLens →
      validate_entropy_hex s =
        .error (.InvalidEntropyLength s.utf8ByteSize expectedHexLens
          (entropyLenHint s.utf8ByteSize))) ∧
    (∀ i : Nat,
      validate_entropy_hex s =
          .error (.InvalidHexString "Entropy must be a valid hex string" (some i)
            "Use only characters 0-9, a-f, A-F") ↔
        s.utf8ByteSize ∈ expectedHexLens ∧ firstNonHexIdx s.data 0 = some i) := by
  constructor
  · intro h
    simp [validate_entropy_hex, h]
  · intro i
    by_cases h : s.utf8ByteSize ∈ expectedHexLens
    · cases hf : firstNonHexIdx s.data 0 <;> simp [validate_entropy_hex, h, hf, eq_comm]
    · simp [validate_entropy_hex, h]

/-- Witness for the amended claim C10 at a concrete 3-byte string. -/
theorem claim_C10_amended_witness :
    ("abc" : String).utf8ByteSize ∉ expectedHexLens ∧
      validate_entropy_hex "abc" =
        .error (.InvalidEntropyLength (("abc" : String).utf8ByteSize) expectedHexLens
          (entropyLenHint (("abc" : String).utf8ByteSize))) :=
  ⟨by decide, (claim_C10_amended "abc").1 (by decide)⟩

/-- Counterexample to claim C10 as stated: a string of sixteen two-byte
characters has character length 16, not a valid length, yet the function
returns InvalidHexString, which the claim reserves for strings of valid
length. -/
theorem claim_C10_counterexample :
    String.length "üüüüüüüüüüüüüüüü" ∉ expectedHexLens ∧
      isInvalidHexStringErr (validate_entropy_hex "üüüüüüüüüüüüüüüü") = true := by
  decide

/-! ## Claim C8: the edit distance is bounded by the longer length -/

/-- Every cell of the edit-distance table is bounded by the larger of its
indices. -/
theorem dpFun_le_max (cs1 cs2 : List Char) : ∀ i j, dpFun cs1 cs2 i j ≤ max i j := by
  intro i
  induction i with
  | zero => intro j; simp [dpFun]
  | succ i ih =>
    intro j
    induction j with
    | zero =>
      have h : dpFun cs1 cs2 (i + 1) 0 = i + 1 := rfl
      rw [h]; omega
    | succ j ihj =>
      have hunf : dpFun cs1 cs2 (i + 1) (j + 1) =
          if cs1.getD i ' ' = cs2.getD j ' ' then dpFun cs1 cs2 i j
          else 1 + min (min (dpFun cs1 cs2 i (j + 1)) (dpFun cs1 cs2 (i + 1) j))
            (dpFun cs1 cs2 i j) := rfl
      rw [hunf]
      by_cases h : cs1.getD i ' ' = cs2.getD j ' '
      · have h1 := ih j
        simp only [if_pos h]
        omega
      · have h1 := ih j
        have h2 := ih (j + 1)
        have h3 := ihj
        simp only [if_neg h]
        omega

/-- Claim C8: for all strings a and b, edit_distance a b is at most the
maximum of their lengths in Unicode scalar values. -/
theorem claim_C8 (a b : String) : edit_distance a b ≤ max a.length b.length :=
  dpFun_le_max a.data b.data a.data.length b.data.length

/-! ## Claim C6: the suggestion lists -/

/-- Claim C6 (amended): every suggestion list reported by
find_invalid_words has at most 3 entries, each entry is a word of the
language's word list within edit distance 2 of the lowercased form of the
reported word (the source measures the distance from the lowercased word,
not from the word as typed), and the list consists of the first such
candidates in word-list order. -/
theorem claim_C6_amended (m : String) (wl : List String) (p : Nat) (w : String)
    (sug : List String) (hmem : (p, w, sug) ∈ find_invalid_words m wl) :
    sug.length ≤ 3 ∧
    (∀ x ∈ sug, x ∈ wl ∧ edit_distance (rustToLowercase w) x ≤ 2) ∧
    sug = (wl.filter fun c => decide (edit_distance (rustToLowercase w) c ≤ 2)).take 3 := by
  unfold find_invalid_words at hmem
  rw [List.mem_filterMap] at hmem
  obtain ⟨iw, _, hf⟩ := hmem
  by_cases hc : rustToLowercase iw.2 ∈ wl
  · simp [hc] at hf
  · simp only [hc, if_false] at hf
    rw [Option.some.injEq, Prod.mk.injEq, Prod.mk.injEq] at hf
    obtain ⟨-, hw, hs⟩ := hf
    subst hw
    refine ⟨?_, ?_, hs.symm⟩
    · rw [← hs]
      simp [List.length_take]
    · intro x hx
      rw [← hs] at hx
      have hx' := List.mem_of_mem_take hx
      rw [List.mem_filter] at hx'
      exact ⟨hx'.1, of_decide_eq_true hx'.2⟩

/-- Witness for the amended claim C6 at a concrete input. -/
theorem claim_C6_amended_witness :
    (1, "ax", ["ab"]) ∈ find_invalid_words "ax" ["ab"] ∧
      ((["ab"] : List String).length ≤ 3 ∧
      (∀ x ∈ (["ab"] : List String), x ∈ (["ab"] : List String) ∧
        edit_distance (rustToLowercase "ax") x ≤ 2) ∧
      ["ab"] = ((["ab"] : List String).filter fun c =>
        decide (edit_distance (rustToLowercase "ax") c ≤ 2)).take 3) :=
  ⟨by decide, claim_C6_amended "ax" ["ab"] 1 "ax" ["ab"] (by decide)⟩

/-- Counterexample to claim C6 as stated: for the out-of-list word ABCD the
suggestion list over the word list [abcx] is [abcx] (the source filters on
the distance from the lowercased word abcd, which is 1), yet the Levenshtein
distance between the reported word ABCD itself and the suggestion abcx
is 4, above the threshold 2 the claim asserts. -/
theorem claim_C6_counterexample :
    find_invalid_words "ABCD" ["abcx"] = [(1, "ABCD", ["abcx"])] ∧
      2 < edit_distance "ABCD" "abcx" := by
  decide

/-! ## Claim C7: word lookup is lowercased but not NFKD-normalized -/

/-- The filterMap behind find_invalid_words is empty exactly when every
word's lowercased form is in the word list, whatever the starting
position. -/
theorem fiw_go_nil (wl : List String) :
    ∀ (l : List String) (n : Nat),
      ((enumWords n l).filterMap (fun iw =>
        if rustToLowercase iw.2 ∈ wl then none
        else some (iw.1 + 1, iw.2,
          (wl.filter fun w => decide (edit_distance (rustToLowercase iw.2) w ≤ 2)).take 3)) = []
       ↔ ∀ w ∈ l, rustToLowercase w ∈ wl) := by
  intro l
  induction l with
  | nil => intro n; simp [enumWords]
  | cons a t ih =>
    intro n
    by_cases hc : rustToLowercase a ∈ wl <;> simp [enumWords, hc, ih (n + 1)]

/-- Claim C7 (amended): the lookup that classifies words as valid or
invalid is case-insensitive only — a word passes exactly when its
lowercased form (Rust to_lowercase) is a list word.  NFKD normalization is
not applied, so a word differing from a list word only in NFKD
normalization form is reported as invalid. -/
theorem claim_C7_amended (m : String) (wl : List String) :
    find_invalid_words m wl = [] ↔ ∀ w ∈ splitWs m, rustToLowercase w ∈ wl :=
  fiw_go_nil wl (splitWs m) 0

/-- Witness for the amended claim C7 at a concrete input. -/
theorem claim_C7_amended_witness :
    find_invalid_words "abandon" ["abandon"] = [] :=
  (claim_C7_amended "abandon" ["abandon"]).mpr (by decide)

/-- Counterexample to claim C7 as stated: the fullwidth spelling of
abandon NFKD-case-folds to the list word abandon, so the claim says the
lookup accepts it, but find_invalid_words reports it as invalid (the code
only lowercases and never applies NFKD). -/
theorem claim_C7_counterexample :
    nfkdCaseFold "ａｂａｎｄｏｎ" = "abandon" ∧
      ("abandon" : String) ∈ (["abandon"] : List String) ∧
      find_invalid_words "ａｂａｎｄｏｎ" ["abandon"] ≠ [] := by
  decide

/-! ## Claim C2: seed derivation length and determinism -/

/-- beBytes always produces exactly k bytes. -/
theorem beBytes_length (k : Nat) : ∀ n, (beBytes k n).length = k := by
  induction k with
  | zero => intro n; rfl
  | succ k ih => intro n; simp [beBytes, ih]

/-- The serialized 64-bit hash state is 64 bytes. -/
theorem hash8Bytes_length_64 (st : Hash8) : (hash8Bytes 64 st).length = 64 := by
  simp [hash8Bytes, beBytes_length]

/-- SHA-512 output is always 64 bytes. -/
theorem sha512_length (msg : List Nat) : (sha512 msg).length = 64 := by
  simp [sha512, hash8Bytes_length_64]

/-- HMAC-SHA512 output is always 64 bytes. -/
theorem hmacSha512_length (key msg : List Nat) : (hmacSha512 key msg).length = 64 := by
  simp [hmacSha512, sha512_length]

/-- Bytewise xor has the length of the shorter input. -/
theorem xorBytes_length (a b : List Nat) : (xorBytes a b).length = min a.length b.length := by
  simp [xorBytes]

/-- The PBKDF2 accumulator keeps its 64-byte length. -/
theorem pbkdf2Go_length (pw : List Nat) :
    ∀ n u acc, acc.length = 64 → (pbkdf2Go pw n u acc).length = 64 := by
  intro n
  induction n with
  | zero => intro u acc h; simpa [pbkdf2Go] using h
  | succ n ih =>
    intro u acc h
    rw [pbkdf2Go]
    exact ih _ _ (by simp [xorBytes_length, h, hmacSha512_length])

/-- The derived seed is always 64 bytes. -/
theorem deriveSeed_length (M P : String) : (deriveSeed M P).length = 64 := by
  rw [deriveSeed, pbkdf2Sha512]
  exact pbkdf2Go_length _ _ _ _ (hmacSha512_length _ _)

/-- Claim C2: for every mnemonic string and every passphrase (including the
empty one), seed derivation returns exactly 64 bytes, and it is a function
of the pair (M, P): two invocations on the same pair give the same
bytes. -/
theorem claim_C2 (M P : String) :
    (deriveSeed M P).length = 64 ∧ deriveSeed M P = deriveSeed M P :=
  ⟨deriveSeed_length M P, rfl⟩

/-! ## Bit packing lemmas for the codec -/

/-- natToBits always produces exactly k bits. -/
theorem natToBits_length (k : Nat) : ∀ n, (natToBits k n).length = k := by
  induction k with
  | zero => intro n; rfl
  | succ k ih => intro n; simp [natToBits, ih]

/-- A bit list reads back below 2 to its length. -/
theorem bitsToNat_lt : ∀ bs : List Bool, bitsToNat bs < 2 ^ bs.length := by
  intro bs
  induction bs with
  | nil => simp [bitsToNat]
  | cons b t ih =>
    have h2 : 2 ^ (t.length + 1) = 2 * 2 ^ t.length := by ring
    cases b <;> simp [bitsToNat] <;> omega

/-- Reading the k low bits of n back gives n modulo 2^k. -/
theorem bitsToNat_natToBits (k : Nat) : ∀ n, bitsToNat (natToBits k n) = n % 2 ^ k := by
  induction k with
  | zero => intro n; simp [natToBits, bitsToNat, Nat.mod_one]
  | succ k ih =>
    intro n
    have hmul : n % 2 ^ (k + 1) = n % 2 ^ k + 2 ^ k * (n / 2 ^ k % 2) := by
      rw [pow_succ, Nat.mod_mul]
    rw [natToBits, bitsToNat, natToBits_length, ih, hmul, Nat.shiftRight_eq_div_pow]
    have hb : n / 2 ^ k % 2 = 0 ∨ n / 2 ^ k % 2 = 1 := by omega
    rcases hb with h | h <;> rw [h] <;> simp <;> omega

/-- Adding a multiple of 2^k does not change the k low bits. -/
theorem natToBits_add_mul_pow : ∀ k v n, natToBits k (n + v * 2 ^ k) = natToBits k n := by
  intro k
  induction k with
  | zero => intro v n; rfl
  | succ k ih =>
    intro v n
    have hre : n + v * 2 ^ (k + 1) = n + 2 * v * 2 ^ k := by ring
    rw [hre, natToBits, natToBits, ih]
    have h1 : (n + 2 * v * 2 ^ k) >>> k = n / 2 ^ k + 2 * v := by
      rw [Nat.shiftRight_eq_div_pow, Nat.add_mul_div_right _ _ (Nat.two_pow_pos k)]
    have h2 : (n / 2 ^ k + 2 * v) % 2 = n / 2 ^ k % 2 := by omega
    rw [h1, Nat.shiftRight_eq_div_pow, h2]

/-- A bit list of length k is recovered from its value. -/
theorem natToBits_bitsToNat : ∀ bs : List Bool, natToBits bs.length (bitsToNat bs) = bs := by
  intro bs
  induction bs with
  | nil => rfl
  | cons b t ih =>
    have hlt := bitsToNat_lt t
    have hdiv : ((if b then 1 else 0) * 2 ^ t.length + bitsToNat t) / 2 ^ t.length =
        (if b then 1 else 0) := by
      rw [Nat.add_comm, Nat.add_mul_div_right _ _ (Nat.two_pow_pos t.length),
        Nat.div_eq_of_lt hlt, Nat.zero_add]
    have htail : natToBits t.length ((if b then 1 else 0) * 2 ^ t.length + bitsToNat t) =
        natToBits t.length (bitsToNat t) := by
      rw [Nat.add_comm]
      exact natToBits_add_mul_pow t.length _ _
    show natToBits (t.length + 1) (bitsToNat (b :: t)) = b :: t
    rw [bitsToNat, natToBits, Nat.shiftRight_eq_div_pow, hdiv, htail, ih]
    cases b <;> simp

/-- Reassembling the chunks of a list gives the list back. -/
theorem chunksGo_flatten (k : Nat) (hk : 0 < k) :
    ∀ (fuel : Nat) (l : List α), l.length ≤ fuel → (chunksGo k fuel l).flatten = l := by
  intro fuel
  induction fuel with
  | zero =>
    intro l hl
    cases l with
    | nil => rfl
    | cons a t => simp at hl
  | succ fuel ih =>
    intro l hl
    cases l with
    | nil => rfl
    | cons a t =>
      rw [chunksGo, List.flatten_cons, ih ((a :: t).drop k) (by simp at hl ⊢; omega)]
      exact List.take_append_drop k (a :: t)

/-- Chunking the concatenation of k-length pieces gives the pieces back. -/
theorem chunksGo_of_flatten (k : Nat) (hk : 0 < k) :
    ∀ (L : List (List α)) (fuel : Nat), (∀ c ∈ L, c.length = k) →
      L.flatten.length ≤ fuel → chunksGo k fuel L.flatten = L := by
  intro L
  induction L with
  | nil =>
    intro fuel _ _
    cases fuel <;> rfl
  | cons c L' ih =>
    intro fuel h hl
    have hc : c.length = k := h c (by simp)
    obtain ⟨a, t, rfl⟩ : ∃ a t, c = a :: t := by
      cases c with
      | nil => rw [← hc] at hk; simp at hk
      | cons a t => exact ⟨a, t, rfl⟩
    cases fuel with
    | zero => simp at hl
    | succ fuel =>
      have hflat : (a :: t ++ L'.flatten) = a :: (t ++ L'.flatten) := rfl
      rw [List.flatten_cons, hflat, chunksGo, ← hflat]
      rw [List.take_left' hc, List.drop_left' hc]
      rw [ih fuel (fun d hd => h d (by simp [hd])) (by simp at hl ⊢; omega)]

/-- With k dividing the length, every chunk has length exactly k. -/
theorem chunksGo_length_mem (k : Nat) (hk : 0 < k) :
    ∀ (fuel : Nat) (l : List α), l.length ≤ fuel → k ∣ l.length →
      ∀ c ∈ chunksGo k fuel l, c.length = k := by
  intro fuel
  induction fuel with
  | zero =>
    intro l hl hdvd c hc
    cases l with
    | nil => simp [chunksGo] at hc
    | cons a t => simp at hl
  | succ fuel ih =>
    intro l hl hdvd c hc
    cases l with
    | nil => simp [chunksGo] at hc
    | cons a t =>
      have hkle : k ≤ (a :: t).length := by
        rcases hdvd with ⟨m, hm⟩
        match m, hm with
        | 0, hm => simp at hm
        | m + 1, hm => rw [hm]; exact Nat.le_mul_of_pos_right _ (by omega)
      rw [chunksGo] at hc
      rcases List.mem_cons.mp hc with h | h
      · rw [h, List.length_take]
        omega
      · refine ih _ (by simp at hl ⊢; omega) ?_ c h
        rw [List.length_drop]
        exact (Nat.dvd_sub' hdvd (Dvd.intro 1 (by omega)))

/-- With k dividing the length, the number of chunks is length / k. -/
theorem chunksGo_count (k : Nat) (hk : 0 < k) :
    ∀ (fuel : Nat) (l : List α), l.length ≤ fuel → k ∣ l.length →
      (chunksGo k fuel l).length = l.length / k := by
  intro fuel
  induction fuel with
  | zero =>
    intro l hl hdvd
    cases l with
    | nil => simp [chunksGo]
    | cons a t => simp at hl
  | succ fuel ih =>
    intro l hl hdvd
    cases l with
    | nil => simp [chunksGo]
    | cons a t =>
      have hkle : k ≤ (a :: t).length := by
        rcases hdvd with ⟨m, hm⟩
        match m, hm with
        | 0, hm => simp at hm
        | m + 1, hm => rw [hm]; exact Nat.le_mul_of_pos_right _ (by omega)
      rw [chunksGo, List.length_cons,
        ih _ (by simp at hl ⊢; omega) (by rw [List.length_drop]; exact Nat.dvd_sub' hdvd (Dvd.intro 1 (by omega)))]
      rw [List.length_drop]
      rcases hdvd with ⟨m, hm⟩
      rw [hm]
      rcases m with _ | m
      · simp at hm
      · have h1 : k * (m + 1) - k = k * m := by ring_nf; omega
        rw [h1, Nat.mul_div_cancel_left _ hk, Nat.mul_div_cancel_left _ hk]

/-- The bit expansion of a byte list has 8 bits per byte. -/
theorem bytesToBits_length : ∀ E : List Nat, (bytesToBits E).length = 8 * E.length := by
  intro E
  induction E with
  | nil => rfl
  | cons a t ih =>
    rw [bytesToBits, List.map_cons, List.flatten_cons, List.length_append, natToBits_length]
    rw [bytesToBits] at ih
    rw [ih, List.length_cons]
    ring

/-- Bytes below 256 round-trip through their bit expansion. -/
theorem bitsToBytes_bytesToBits (E : List Nat) (hb : ∀ b ∈ E, b < 256) :
    bitsToBytes (bytesToBits E) = E := by
  have hmem : ∀ c ∈ E.map (natToBits 8), c.length = 8 := by
    intro c hc
    rcases List.mem_map.mp hc with ⟨b, _, rfl⟩
    exact natToBits_length 8 b
  rw [bitsToBytes, chunks, bytesToBits,
    chunksGo_of_flatten 8 (by omega) (E.map (natToBits 8)) _ hmem (Nat.le_refl _)]
  rw [List.map_map]
  have hpt : ∀ b ∈ E, (bitsToNat ∘ natToBits 8) b = id b := by
    intro b hbmem
    have h8 := bitsToNat_natToBits 8 b
    simp only [Function.comp_apply, h8, id]
    exact Nat.mod_eq_of_lt (by have := hb b hbmem; omega)
  rw [List.map_congr_left hpt, List.map_id]

/-- SHA-256 output is always 32 bytes. -/
theorem sha256_length (msg : List Nat) : (sha256 msg).length = 32 := by
  simp [sha256, hash8Bytes, beBytes_length]

/-! ## Splitting the printed mnemonic recovers its words -/

/-- Scanning a whitespace-free word prefix just accumulates it. -/
theorem splitWsAux_word (w : List Char) (hw : ∀ c ∈ w, isRustWs c = false) :
    ∀ (l acc : List Char), splitWsAux (w ++ l) acc = splitWsAux l (w.reverse ++ acc) := by
  induction w with
  | nil => intro l acc; simp
  | cons c cs ih =>
    intro l acc
    have hc : isRustWs c = false := hw c (by simp)
    rw [List.cons_append, splitWsAux, hc]
    simp only [Bool.false_eq_true, if_false]
    rw [ih (fun d hd => hw d (by simp [hd])) l (c :: acc)]
    congr 1
    simp

/-- String concatenation concatenates the character lists. -/
theorem string_data_append (a b : String) : (a ++ b).data = a.data ++ b.data := by
  cases a
  cases b
  rfl

/-- Splitting the space-joined words of nonempty whitespace-free words
recovers the word list. -/
theorem splitWsAux_joinChars :
    ∀ wcs : List (List Char),
      (∀ w ∈ wcs, w ≠ [] ∧ ∀ c ∈ w, isRustWs c = false) →
      splitWsAux (joinChars wcs) [] = wcs := by
  intro wcs
  induction wcs with
  | nil => intro _; rfl
  | cons w tail ih =>
    intro h
    obtain ⟨hne, hnw⟩ := h w (by simp)
    obtain ⟨a, as, hrev⟩ : ∃ a as, w.reverse = a :: as := by
      cases hwr : w.reverse with
      | nil => exact absurd (by simpa using congrArg List.reverse hwr) hne
      | cons a as => exact ⟨a, as, rfl⟩
    cases tail with
    | nil =>
      have h1 := splitWsAux_word w hnw [] []
      rw [List.append_nil, List.append_nil] at h1
      show splitWsAux w [] = [w]
      rw [h1, hrev, splitWsAux]
      simp [← hrev]
      exact hne
    | cons w2 rest =>
      show splitWsAux (w ++ ' ' :: joinChars (w2 :: rest)) [] = w :: w2 :: rest
      rw [splitWsAux_word w hnw, List.append_nil, splitWsAux]
      have hsp : isRustWs ' ' = true := by decide
      rw [hsp, hrev]
      simp only [List.isEmpty_cons, if_true, Bool.false_eq_true, if_false]
      rw [← hrev]
      simp only [List.reverse_reverse]
      rw [ih (fun d hd => h d (by simp [hd]))]

/-- Splitting the printed mnemonic recovers its words, provided every word
is nonempty and whitespace-free. -/
theorem splitWs_joinWords (ws : List String)
    (h : ∀ w ∈ ws, w.data ≠ [] ∧ ∀ c ∈ w.data, isRustWs c = false) :
    splitWs (joinWords ws) = ws := by
  have hdata : ∀ l : List String, (joinWords l).data = joinChars (l.map String.data) := by
    intro l
    induction l with
    | nil => rfl
    | cons w tail ih =>
      cases tail with
      | nil => rfl
      | cons w2 rest =>
        show (w ++ " " ++ joinWords (w2 :: rest)).data =
          w.data ++ ' ' :: joinChars ((w2 :: rest).map String.data)
        rw [← ih, string_data_append, string_data_append]
        simp
  rw [splitWs, hdata,
    splitWsAux_joinChars (ws.map String.data)
      (by intro w hw; rcases List.mem_map.mp hw with ⟨x, hx, rfl⟩; exact h x hx)]
  rw [List.map_map]
  have : ∀ x ∈ ws, (String.mk ∘ String.data) x = id x := fun x _ => rfl
  rw [List.map_congr_left this, List.map_id]

/-! ## Word lookup lemmas for the codec -/

/-- When every index is in range, looking the indices up succeeds, with the
output words related pointwise to the indices. -/
theorem wordsOfIndices_ok (wl : List α) :
    ∀ idxs : List Nat, (∀ i ∈ idxs, i < wl.length) →
      ∃ ws, wordsOfIndices wl idxs = some ws ∧
        List.Forall₂ (fun i w => wl.get? i = some w) idxs ws := by
  intro idxs
  induction idxs with
  | nil => intro _; exact ⟨[], rfl, List.Forall₂.nil⟩
  | cons i is ih =>
    intro h
    obtain ⟨w, hw⟩ : ∃ w, wl.get? i = some w := by
      have hi : i < wl.length := h i (by simp)
      exact ⟨wl.get ⟨i, hi⟩, List.get?_eq_get hi⟩
    obtain ⟨ws, hws, hf⟩ := ih (fun j hj => h j (by simp [hj]))
    exact ⟨w :: ws, by rw [wordsOfIndices, hw, hws], List.Forall₂.cons hw hf⟩

/-- On a duplicate-free list, the index of the element at position i is i. -/
theorem idxOf?_get? [DecidableEq α] :
    ∀ (wl : List α) (i : Nat) (w : α), wl.Nodup → wl.get? i = some w →
      idxOf? wl w = some i := by
  intro wl
  induction wl with
  | nil => intro i w _ h; simp at h
  | cons b t ih =>
    intro i w hnd h
    cases i with
    | zero =>
      have hb : b = w := by simpa using h
      rw [idxOf?, if_pos hb]
    | succ i =>
      have ht : t.get? i = some w := by simpa using h
      have hmem : w ∈ t := List.get?_mem ht
      have hbw : ¬b = w := by
        intro e
        exact (List.nodup_cons.mp hnd).1 (e ▸ hmem)
      rw [idxOf?, if_neg hbw, ih i w (List.nodup_cons.mp hnd).2 ht]
      rfl

/-- Looking up words produced from in-range indices of a duplicate-free
list recovers exactly those indices, from any starting position. -/
theorem lookupIndices_of_forall2 [DecidableEq α] (wl : List α) (hnd : wl.Nodup) :
    ∀ (idxs : List Nat) (ws : List α),
      List.Forall₂ (fun i w => wl.get? i = some w) idxs ws →
      ∀ p, lookupIndices wl ws p = .ok idxs := by
  intro idxs ws hf
  induction hf with
  | nil => intro _; rfl
  | cons h _ ih =>
    intro p
    rw [lookupIndices, idxOf?_get? wl _ _ hnd h]
    simp only []
    rw [ih (p + 1)]

/-- Membership gives an index. -/
theorem idxOf?_of_mem [DecidableEq α] :
    ∀ (l : List α) (a : α), a ∈ l → ∃ i, idxOf? l a = some i := by
  intro l
  induction l with
  | nil => intro a h; simp at h
  | cons b t ih =>
    intro a h
    by_cases hb : b = a
    · exact ⟨0, by rw [idxOf?, if_pos hb]⟩
    · obtain ⟨i, hi⟩ := ih a (by
        rcases List.mem_cons.mp h with h' | h'
        · exact absurd h'.symm hb
        · exact h')
      exact ⟨i + 1, by rw [idxOf?, if_neg hb, hi]; rfl⟩

/-- When every word is in the list, the index lookup of the decoder
succeeds. -/
theorem lookupIndices_ok_of_mem [DecidableEq α] (wl : List α) :
    ∀ (ws : List α) (p : Nat), (∀ w ∈ ws, w ∈ wl) →
      ∃ idxs, lookupIndices wl ws p = .ok idxs := by
  intro ws
  induction ws with
  | nil => intro _ _; exact ⟨[], rfl⟩
  | cons w ws' ih =>
    intro p h
    obtain ⟨i, hi⟩ := idxOf?_of_mem wl w (h w (by simp))
    obtain ⟨idxs, hidxs⟩ := ih (p + 1) (fun x hx => h x (by simp [hx]))
    exact ⟨i :: idxs, by rw [lookupIndices, hi]; simp only []; rw [hidxs]⟩

/-- A Forall₂ witness for each member of the right-hand list. -/
theorem forall2_mem_right {α β : Type _} {R : α → β → Prop} :
    ∀ {as : List α} {bs : List β}, List.Forall₂ R as bs → ∀ b ∈ bs, ∃ a ∈ as, R a b := by
  intro as bs h
  induction h with
  | nil => intro b hb; simp at hb
  | cons hR _ ih =>
    intro b hb
    rcases List.mem_cons.mp hb with rfl | hb'
    · exact ⟨_, by simp, hR⟩
    · obtain ⟨a, ha, hab⟩ := ih b hb'
      exact ⟨a, by simp [ha], hab⟩

/-! ## Claim C1: the codec round-trips -/

/-- Core of the round-trip: for an entropy length eb with its word count N
and checksum length cs, encoding succeeds and decoding the printed phrase
returns the original entropy.  The numeric side conditions are discharged
per entropy length in claim_C1. -/
theorem roundtrip_core (wl : List String) (hnd : wl.Nodup) (hlen : wl.length = 2048)
    (hwords : ∀ w ∈ wl, w.data ≠ [] ∧ ∀ c ∈ w.data, isRustWs c = false)
    (E : List Nat) (hb : ∀ b ∈ E, b < 256) (eb N cs : Nat)
    (hEeb : E.length = eb)
    (hcs : checksumLenBits eb = cs)
    (hN11 : 8 * eb + cs = N * 11)
    (hNval : N ∈ validCounts)
    (hcsN : N * 11 / 33 = cs)
    (hentN : N * 11 - N * 11 / 33 = 8 * eb)
    (hcs256 : cs ≤ 256)
    (hEval : eb ∈ validEntropyBytes) :
    ∃ ws, encodeMnemonic wl E = .ok ws ∧ decodePhrase wl (joinWords ws) = .ok E := by
  have hcslen : (checksumBits E).length = cs := by
    rw [checksumBits, List.length_take, bytesToBits_length, sha256_length, hEeb, hcs]
    omega
  have hBlen : (bytesToBits E ++ checksumBits E).length = N * 11 := by
    rw [List.length_append, bytesToBits_length, hcslen, hEeb, hN11]
  have hdvd : 11 ∣ (bytesToBits E ++ checksumBits E).length := ⟨N, by rw [hBlen]; ring⟩
  have hall : ∀ c ∈ chunks 11 (bytesToBits E ++ checksumBits E), c.length = 11 :=
    chunksGo_length_mem 11 (by omega) _ _ (Nat.le_refl _) hdvd
  have hcount : (chunks 11 (bytesToBits E ++ checksumBits E)).length = N := by
    rw [chunks, chunksGo_count 11 (by omega) _ _ (Nat.le_refl _) hdvd, hBlen,
      Nat.mul_div_cancel _ (by omega)]
  have hidx : encodeIndices E = (chunks 11 (bytesToBits E ++ checksumBits E)).map bitsToNat := rfl
  have hidxlt : ∀ i ∈ encodeIndices E, i < wl.length := by
    intro i hi
    rw [hidx] at hi
    rcases List.mem_map.mp hi with ⟨c, hc, rfl⟩
    have hlt := bitsToNat_lt c
    rw [hall c hc] at hlt
    rw [hlen]
    omega
  obtain ⟨ws, hws, hf2⟩ := wordsOfIndices_ok wl (encodeIndices E) hidxlt
  have henc : encodeMnemonic wl E = .ok ws := by
    rw [encodeMnemonic, if_pos (by rw [hEeb]; exact hEval), hws]
  refine ⟨ws, henc, ?_⟩
  have hwmem : ∀ w ∈ ws, w ∈ wl := by
    intro w hw
    obtain ⟨i, _, hR⟩ := forall2_mem_right hf2 w hw
    exact List.get?_mem hR
  have hsplit : splitWs (joinWords ws) = ws :=
    splitWs_joinWords ws (fun w hw => hwords w (hwmem w hw))
  rw [decodePhrase, hsplit]
  have hwlen : ws.length = N := by
    have hle := List.Forall₂.length_eq hf2
    rw [hidx, List.length_map, hcount] at hle
    omega
  rw [decodeMnemonic, if_pos (by rw [hwlen]; exact hNval),
    lookupIndices_of_forall2 wl hnd _ _ hf2 1]
  simp only []
  have hidxbits : idxBits (encodeIndices E) = bytesToBits E ++ checksumBits E := by
    rw [idxBits, hidx, List.map_map]
    have hone : ∀ c ∈ chunks 11 (bytesToBits E ++ checksumBits E),
        (natToBits 11 ∘ bitsToNat) c = id c := by
      intro c hc
      have h11 := natToBits_bitsToNat c
      rw [hall c hc] at h11
      simpa using h11
    rw [List.map_congr_left hone, List.map_id, chunks,
      chunksGo_flatten 11 (by omega) _ _ (Nat.le_refl _)]
  have hent8 : entBitsOf N = 8 * eb := by rw [entBitsOf, hentN]
  have hcsl : csLenOf N = cs := by rw [csLenOf, hcsN]
  have hbblen : (bytesToBits E).length = 8 * eb := by rw [bytesToBits_length, hEeb]
  have htake : (idxBits (encodeIndices E)).take (entBitsOf N) = bytesToBits E := by
    rw [hidxbits, hent8, List.take_left' hbblen]
  have hdrop : (idxBits (encodeIndices E)).drop (entBitsOf N) = checksumBits E := by
    rw [hidxbits, hent8, List.drop_left' hbblen]
  have hdec : decodedEntropy (encodeIndices E) N = E := by
    rw [decodedEntropy, htake, bitsToBytes_bytesToBits E hb]
  have hok : checksumOk (encodeIndices E) N = true := by
    rw [checksumOk, hdrop, hdec, hcsl, checksumBits, hEeb, hcs]
    exact beq_self_eq_true _
  rw [hwlen, hok, if_pos rfl, hdec]

/-- Claim C1: for every entropy of 16, 20, 24, 28 or 32 bytes and every
(duplicate-free, 2048-entry, whitespace-free) language word list, encoding
succeeds and decoding the printed mnemonic — the words joined with spaces,
then re-split on whitespace as handle_entropy does — returns exactly the
original entropy bytes. -/
theorem claim_C1 (wl : List String) (hnd : wl.Nodup) (hlen : wl.length = 2048)
    (hwords : ∀ w ∈ wl, w.data ≠ [] ∧ ∀ c ∈ w.data, isRustWs c = false)
    (E : List Nat) (hE : E.length ∈ validEntropyBytes) (hb : ∀ b ∈ E, b < 256) :
    ∃ ws, encodeMnemonic wl E = .ok ws ∧ decodePhrase wl (joinWords ws) = .ok E := by
  have hE' : E.length = 16 ∨ E.length = 20 ∨ E.length = 24 ∨ E.length = 28 ∨ E.length = 32 := by
    simpa [validEntropyBytes] using hE
  rcases hE' with h | h | h | h | h
  · exact roundtrip_core wl hnd hlen hwords E hb 16 12 4 h (by decide) (by decide)
      (by decide) (by decide) (by decide) (by decide) (by decide)
  · exact roundtrip_core wl hnd hlen hwords E hb 20 15 5 h (by decide) (by decide)
      (by decide) (by decide) (by decide) (by decide) (by decide)
  · exact roundtrip_core wl hnd hlen hwords E hb 24 18 6 h (by decide) (by decide)
      (by decide) (by decide) (by decide) (by decide) (by decide)
  · exact roundtrip_core wl hnd hlen hwords E hb 28 21 7 h (by decide) (by decide)
      (by decide) (by decide) (by decide) (by decide) (by decide)
  · exact roundtrip_core wl hnd hlen hwords E hb 32 24 8 h (by decide) (by decide)
      (by decide) (by decide) (by decide) (by decide) (by decide)

/-- The 11-bit spellings are injective below 2048. -/
theorem natWord_inj (a b : Nat) (ha : a < 2048) (hbb : b < 2048)
    (h : natWord a = natWord b) : a = b := by
  have hdata := congrArg String.data h
  have hfinj : Function.Injective (fun bo : Bool => if bo then '1' else '0') := by
    intro x y hxy
    cases x <;> cases y <;> simp_all
  have hbits : natToBits 11 a = natToBits 11 b :=
    List.map_injective_iff.mpr hfinj hdata
  have hva := bitsToNat_natToBits 11 a
  have hvb := bitsToNat_natToBits 11 b
  rw [hbits, hvb] at hva
  have h2 : (2 : Nat) ^ 11 = 2048 := by norm_num
  rw [h2] at hva
  rw [← Nat.mod_eq_of_lt ha, ← Nat.mod_eq_of_lt hbb, hva]

/-- The demo word list has no duplicates. -/
theorem demoWordList_nodup : demoWordList.Nodup := by
  refine List.Nodup.map_on ?_ (List.nodup_range 2048)
  intro x hx y hy hxy
  exact natWord_inj x y (List.mem_range.mp hx) (List.mem_range.mp hy) hxy

/-- The demo word list has 2048 entries. -/
theorem demoWordList_length : demoWordList.length = 2048 := by
  simp [demoWordList]

/-- Every demo word is nonempty and whitespace-free. -/
theorem demoWordList_words :
    ∀ w ∈ demoWordList, w.data ≠ [] ∧ ∀ c ∈ w.data, isRustWs c = false := by
  intro w hw
  rcases List.mem_map.mp hw with ⟨n, _, rfl⟩
  have hl : (natWord n).data.length = 11 := by
    simp [natWord, natToBits_length]
  constructor
  · intro hcon
    rw [hcon] at hl
    simp at hl
  · intro c hc
    have hc' : c ∈ (natToBits 11 n).map (fun b => if b then '1' else '0') := hc
    rcases List.mem_map.mp hc' with ⟨bo, _, rfl⟩
    cases bo
    · show isRustWs '0' = false
      decide
    · show isRustWs '1' = false
      decide

/-- Witness for claim C1: the all-zero 16-byte entropy over the demo word
list. -/
theorem claim_C1_witness :
    ∃ ws, encodeMnemonic demoWordList entropyZero16 = .ok ws ∧
      decodePhrase demoWordList (joinWords ws) = .ok entropyZero16 :=
  claim_C1 demoWordList demoWordList_nodup demoWordList_length demoWordList_words
    entropyZero16 (by decide) (by decide)

/-! ## Claim C3: checksum mismatch -/

/-- Claim C3: a phrase with a valid word count whose words are all in the
word list, but whose trailing checksum bits differ from the top ENT/32
bits of SHA-256 of the decoded entropy, is rejected by the decoder with
ChecksumMismatch. -/
theorem claim_C3 (wl : List String) (s : String)
    (hcount : (splitWs s).length ∈ validCounts)
    (hmem : ∀ w ∈ splitWs s, w ∈ wl)
    (hcs : ∀ idxs, lookupIndices wl (splitWs s) 1 = .ok idxs →
      checksumOk idxs (splitWs s).length = false) :
    decodePhrase wl s = .error .ChecksumMismatch := by
  obtain ⟨idxs, hidxs⟩ := lookupIndices_ok_of_mem wl (splitWs s) 1 hmem
  rw [decodePhrase, decodeMnemonic, if_pos hcount, hidxs]
  simp only []
  rw [hcs idxs hidxs]
  simp

set_option maxRecDepth 4000 in
/-- Witness for claim C3: twelve copies of the only list word pack to the
all-zero 16-byte entropy with a zero checksum nibble, while SHA-256 of
that entropy starts with nibble 3. -/
theorem claim_C3_witness :
    decodePhrase ["abc"] "abc abc abc abc abc abc abc abc abc abc abc abc" =
      .error .ChecksumMismatch := by
  apply claim_C3
  · decide
  · decide
  · intro idxs h
    have he : lookupIndices ["abc"]
        (splitWs "abc abc abc abc abc abc abc abc abc abc abc abc") 1 =
        .ok (List.replicate 12 0) := by decide
    rw [he] at h
    injection h with h'
    rw [← h']
    decide

/-! ## Claim C9: the edit distance satisfies the triangle inequality

The proof works on levRec.  First the four one-character monotonicity
bounds, then: one edit changes the distance by at most one, a minimal edit
path exists, and paths compose.  Finally the table of edit_distance is
identified with levRec on reversed prefixes. -/

/-- levRec from the empty first list. -/
theorem lev_nil (ys : List Char) : levRec [] ys = ys.length := by
  simp [levRec]

/-- levRec to the empty second list, cons case. -/
theorem lev_cons_nil (x : Char) (xs : List Char) : levRec (x :: xs) [] = xs.length + 1 := by
  simp [levRec]

/-- levRec to the empty second list. -/
theorem lev_nil_any : ∀ xs : List Char, levRec xs [] = xs.length := by
  intro xs
  cases xs with
  | nil => rw [lev_nil]
  | cons x t => rw [lev_cons_nil, List.length_cons]

/-- The cons-cons unfolding of levRec. -/
theorem lev_cons_cons (x y : Char) (xs ys : List Char) :
    levRec (x :: xs) (y :: ys) =
      if x = y then levRec xs ys
      else 1 + min (min (levRec xs (y :: ys)) (levRec (x :: xs) ys)) (levRec xs ys) := by
  rw [levRec]

/-- Prepending a character to either side increases levRec by at most 1:
the grow pair, proved by joint strong induction on the combined length. -/
theorem lev_grow : ∀ (n : Nat) (xs ys : List Char), xs.length + ys.length = n →
    (∀ c : Char, levRec xs (c :: ys) ≤ 1 + levRec xs ys) ∧
    (∀ c : Char, levRec xs ys ≤ 1 + levRec (c :: xs) ys) := by
  intro n
  induction n using Nat.strong_induction_on with
  | _ n ih =>
    intro xs ys hsum
    subst hsum
    constructor
    · intro c
      cases xs with
      | nil =>
        rw [lev_nil, lev_nil]
        simp only [List.length_cons]
        omega
      | cons x xs' =>
        rw [lev_cons_cons]
        by_cases hxc : x = c
        · rw [if_pos hxc]
          exact (ih (xs'.length + ys.length)
            (by simp only [List.length_cons]; omega) xs' ys rfl).2 x
        · rw [if_neg hxc]
          have h1 := Nat.min_le_right (levRec xs' (c :: ys)) (levRec (x :: xs') ys)
          have h2 := Nat.min_le_left (min (levRec xs' (c :: ys)) (levRec (x :: xs') ys))
            (levRec xs' ys)
          omega
    · intro c
      cases ys with
      | nil =>
        rw [lev_nil_any, lev_cons_nil]
        omega
      | cons y ys' =>
        rw [lev_cons_cons]
        by_cases hcy : c = y
        · rw [if_pos hcy]
          subst hcy
          exact (ih (xs.length + ys'.length)
            (by simp only [List.length_cons]; omega) xs ys' rfl).1 c
        · rw [if_neg hcy]
          have hA2 := (ih (xs.length + ys'.length)
            (by simp only [List.length_cons]; omega) xs ys' rfl).1 y
          have hB1 := (ih (xs.length + ys'.length)
            (by simp only [List.length_cons]; omega) xs ys' rfl).2 c
          omega

/-- Removing a leading character from either side increases levRec by at
most 1: the shrink pair, by joint strong induction on the combined
length. -/
theorem lev_shrink : ∀ (n : Nat) (xs ys : List Char), xs.length + ys.length = n →
    (∀ c : Char, levRec xs ys ≤ 1 + levRec xs (c :: ys)) ∧
    (∀ c : Char, levRec (c :: xs) ys ≤ 1 + levRec xs ys) := by
  intro n
  induction n using Nat.strong_induction_on with
  | _ n ih =>
    intro xs ys hsum
    subst hsum
    constructor
    · intro c
      cases xs with
      | nil =>
        rw [lev_nil, lev_nil]
        simp only [List.length_cons]
        omega
      | cons x xs' =>
        conv_rhs => rw [lev_cons_cons]
        by_cases hxc : x = c
        · rw [if_pos hxc]
          exact (ih (xs'.length + ys.length)
            (by simp only [List.length_cons]; omega) xs' ys rfl).2 x
        · rw [if_neg hxc]
          have hB2 := (ih (xs'.length + ys.length)
            (by simp only [List.length_cons]; omega) xs' ys rfl).2 x
          have hA1 := (ih (xs'.length + ys.length)
            (by simp only [List.length_cons]; omega) xs' ys rfl).1 c
          omega
    · intro c
      cases ys with
      | nil =>
        rw [lev_cons_nil, lev_nil_any]
        omega
      | cons y ys' =>
        rw [lev_cons_cons]
        by_cases hcy : c = y
        · rw [if_pos hcy]
          subst hcy
          exact (ih (xs.length + ys'.length)
            (by simp only [List.length_cons]; omega) xs ys' rfl).1 c
        · rw [if_neg hcy]
          have h1 := Nat.min_le_left (min (levRec xs (y :: ys')) (levRec (c :: xs) ys'))
            (levRec xs ys')
          have h2 := Nat.min_le_left (levRec xs (y :: ys')) (levRec (c :: xs) ys')
          omega

/-- Prepending on the right adds at most one edit. -/
theorem lev_A2 (xs ys : List Char) (c : Char) : levRec xs (c :: ys) ≤ 1 + levRec xs ys :=
  (lev_grow (xs.length + ys.length) xs ys rfl).1 c

/-- Dropping the left head costs at most one edit. -/
theorem lev_B1 (xs ys : List Char) (c : Char) : levRec xs ys ≤ 1 + levRec (c :: xs) ys :=
  (lev_grow (xs.length + ys.length) xs ys rfl).2 c

/-- Dropping the right head costs at most one edit. -/
theorem lev_A1 (xs ys : List Char) (c : Char) : levRec xs ys ≤ 1 + levRec xs (c :: ys) :=
  (lev_shrink (xs.length + ys.length) xs ys rfl).1 c

/-- Prepending on the left adds at most one edit. -/
theorem lev_B2 (xs ys : List Char) (c : Char) : levRec (c :: xs) ys ≤ 1 + levRec xs ys :=
  (lev_shrink (xs.length + ys.length) xs ys rfl).2 c

/-- Replacing the head character changes levRec by at most 1. -/
theorem lev_subst (x y : Char) (t : List Char) :
    ∀ b, levRec (x :: t) b ≤ 1 + levRec (y :: t) b := by
  intro b
  induction b with
  | nil =>
    rw [lev_cons_nil, lev_cons_nil]
    omega
  | cons c b' ihb =>
    rw [lev_cons_cons, lev_cons_cons]
    by_cases hx : x = c <;> by_cases hy : y = c
    · rw [if_pos hx, if_pos hy]
      omega
    · rw [if_pos hx, if_neg hy]
      have hA1 := lev_A1 t b' c
      have hB1 := lev_B1 t b' y
      omega
    · rw [if_neg hx, if_pos hy]
      have h1 := Nat.min_le_left (min (levRec t (c :: b')) (levRec (x :: t) b')) (levRec t b')
      omega
    · rw [if_neg hx, if_neg hy]
      have hs := ihb
      have hA1 := lev_A1 t b' c
      have hB1 := lev_B1 t b' y
      omega

/-- An edit below a common head changes levRec by at most 1 if the edited
tails do. -/
theorem lev_lift_head (d : Char) {u v : List Char}
    (hstep : ∀ b, levRec u b ≤ 1 + levRec v b) :
    ∀ b, levRec (d :: u) b ≤ 1 + levRec (d :: v) b := by
  intro b
  induction b with
  | nil =>
    rw [lev_cons_nil, lev_cons_nil]
    have h0 := hstep []
    rw [lev_nil_any, lev_nil_any] at h0
    omega
  | cons c b' ihb =>
    rw [lev_cons_cons, lev_cons_cons]
    by_cases hd : d = c
    · rw [if_pos hd, if_pos hd]
      exact hstep b'
    · rw [if_neg hd, if_neg hd]
      have h1 := hstep (c :: b')
      have h2 := hstep b'
      have h3 := ihb
      omega

/-- One edit changes levRec by at most 1, against any fixed second list. -/
theorem lev_step_le {a a' : List Char} (h : EStep a a') :
    ∀ b, levRec a b ≤ 1 + levRec a' b := by
  induction h with
  | ins c l => intro b; exact lev_B1 l b c
  | del c l => intro b; exact lev_B2 l b c
  | rep x y l => intro b; exact lev_subst x y l b
  | lift c _ ih => exact lev_lift_head c ih

/-- Edit paths compose. -/
theorem epath_trans : ∀ {m : Nat} {a b : List Char}, EPath m a b →
    ∀ {n : Nat} {c : List Char}, EPath n b c → EPath (m + n) a c := by
  intro m a b h1
  induction h1 with
  | refl _ =>
    intro n c h2
    simpa using h2
  | step hs _ ih =>
    intro n c h2
    have h3 := ih h2
    have harr : ∀ k : Nat, k + n + 1 = k + 1 + n := by omega
    exact harr _ ▸ EPath.step hs h3

/-- Appending one edit to a path. -/
theorem epath_snoc {n : Nat} {a b c : List Char}
    (h1 : EPath n a b) (hs : EStep b c) : EPath (n + 1) a c :=
  epath_trans h1 (EPath.step hs (EPath.refl c))

/-- A path lifts below a common head. -/
theorem epath_cons (d : Char) {n : Nat} {u v : List Char}
    (h : EPath n u v) : EPath n (d :: u) (d :: v) := by
  induction h with
  | refl _ => exact EPath.refl _
  | step hs _ ih => exact EPath.step (EStep.lift d hs) ih

/-- The empty list reaches any list by insertions. -/
theorem epath_inserts (ys : List Char) : EPath ys.length [] ys := by
  induction ys with
  | nil => exact EPath.refl []
  | cons y t ih => exact epath_snoc ih (EStep.ins y t)

/-- Any list reaches the empty list by deletions. -/
theorem epath_deletes (xs : List Char) : EPath xs.length xs [] := by
  induction xs with
  | nil => exact EPath.refl []
  | cons x t ih => exact EPath.step (EStep.del x t) ih

/-- A path of exactly levRec xs ys edits from xs to ys exists. -/
theorem exists_epath : ∀ (n : Nat) (xs ys : List Char), xs.length + ys.length = n →
    EPath (levRec xs ys) xs ys := by
  intro n
  induction n using Nat.strong_induction_on with
  | _ n ih =>
    intro xs ys hsum
    subst hsum
    cases xs with
    | nil =>
      rw [lev_nil]
      exact epath_inserts ys
    | cons x xs' =>
      cases ys with
      | nil =>
        rw [lev_cons_nil]
        exact epath_deletes (x :: xs')
      | cons y ys' =>
        rw [lev_cons_cons]
        by_cases hxy : x = y
        · rw [if_pos hxy]
          subst hxy
          exact epath_cons x (ih (xs'.length + ys'.length)
            (by simp only [List.length_cons]; omega) xs' ys' rfl)
        · rw [if_neg hxy]
          have hA := ih (xs'.length + (ys'.length + 1))
            (by simp only [List.length_cons]; omega) xs' (y :: ys') (by simp)
          have hB := ih ((xs'.length + 1) + ys'.length)
            (by simp only [List.length_cons]; omega) (x :: xs') ys' (by simp)
          have hC := ih (xs'.length + ys'.length)
            (by simp only [List.length_cons]; omega) xs' ys' rfl
          have hm : min (min (levRec xs' (y :: ys')) (levRec (x :: xs') ys')) (levRec xs' ys') =
                levRec xs' (y :: ys') ∨
              min (min (levRec xs' (y :: ys')) (levRec (x :: xs') ys')) (levRec xs' ys') =
                levRec (x :: xs') ys' ∨
              min (min (levRec xs' (y :: ys')) (levRec (x :: xs') ys')) (levRec xs' ys') =
                levRec xs' ys' := by
            omega
          rcases hm with hm | hm | hm <;> rw [hm, Nat.add_comm 1 _]
          · exact EPath.step (EStep.del x xs') hA
          · exact epath_snoc hB (EStep.ins y ys')
          · exact EPath.step (EStep.rep x y xs') (epath_cons y hC)

/-- The triangle inequality for levRec. -/
theorem lev_triangle (a b c : List Char) : levRec a c ≤ levRec a b + levRec b c := by
  suffices h : ∀ (n : Nat) (u v : List Char), EPath n u v → levRec u c ≤ n + levRec v c from
    h (levRec a b) a b (exists_epath (a.length + b.length) a b rfl)
  intro n u v hpath
  induction hpath with
  | refl l => omega
  | step hs _ ih =>
    have h1 := lev_step_le hs c
    omega

/-- Detaching the last element of a prefix, reversed. -/
theorem take_succ_reverse (l : List Char) (i : Nat) (h : i < l.length) (d : Char) :
    (l.take (i + 1)).reverse = l.getD i d :: (l.take i).reverse := by
  rw [List.take_succ]
  have h1 : l[i]? = some l[i] := List.getElem?_eq_getElem h
  have h2 : l.getD i d = l[i] := List.getD_eq_getElem l d h
  rw [h1, h2]
  simp

/-- Each cell of the edit-distance table is levRec of the reversed
prefixes of its indices. -/
theorem dpFun_eq_levRec (cs1 cs2 : List Char) :
    ∀ i j, i ≤ cs1.length → j ≤ cs2.length →
      dpFun cs1 cs2 i j = levRec ((cs1.take i).reverse) ((cs2.take j).reverse) := by
  intro i
  induction i with
  | zero =>
    intro j _ hj
    show j = _
    rw [List.take_zero, List.reverse_nil, lev_nil, List.length_reverse, List.length_take]
    omega
  | succ i ihi =>
    intro j
    induction j with
    | zero =>
      intro hi _
      show i + 1 = _
      rw [List.take_zero, List.reverse_nil, lev_nil_any, List.length_reverse, List.length_take]
      omega
    | succ j ihj =>
      intro hi hj
      have hi1 : i < cs1.length := by omega
      have hj1 : j < cs2.length := by omega
      have ht1 := take_succ_reverse cs1 i hi1 ' '
      have ht2 := take_succ_reverse cs2 j hj1 ' '
      have hd : dpFun cs1 cs2 (i + 1) (j + 1) =
          if cs1.getD i ' ' = cs2.getD j ' ' then dpFun cs1 cs2 i j
          else 1 + min (min (dpFun cs1 cs2 i (j + 1)) (dpFun cs1 cs2 (i + 1) j))
            (dpFun cs1 cs2 i j) := rfl
      rw [hd, ht1, ht2, lev_cons_cons]
      by_cases heq : cs1.getD i ' ' = cs2.getD j ' '
      · rw [if_pos heq, if_pos heq, ihi j (by omega) (by omega)]
      · rw [if_neg heq, if_neg heq, ihi (j + 1) (by omega) hj,
          ihj hi (by omega), ihi j (by omega) (by omega), ht1, ht2]

/-- Claim C9: edit_distance satisfies the triangle inequality. -/
theorem claim_C9 (a b c : String) :
    edit_distance a c ≤ edit_distance a b + edit_distance b c := by
  have hbridge : ∀ x y : String, edit_distance x y = levRec x.data.reverse y.data.reverse := by
    intro x y
    rw [edit_distance, dpFun_eq_levRec x.data y.data x.data.length y.data.length
      (Nat.le_refl _) (Nat.le_refl _), List.take_length, List.take_length]
  rw [hbridge, hbridge, hbridge]
  exact lev_triangle _ _ _

end Bip39
